import Mathlib

/-!
Verification of the index layout, augmented sensitivity dynamics, segment-wise
propagation loop, input-fingerprint cache and setup validation of
`ODEIntegrationComp` (`dymos/transcriptions/explicit_shooting/ode_integration_comp.py`).

Flat numpy buffers are modelled as total functions `ℕ → ℚ` (reads outside a
buffer's extent never occur in the embedded code paths), matrices as
`ℕ → ℕ → ℚ` with their dimensions carried alongside, and numpy slices as
`(start, length)` pairs.  The external collaborators — the ODE evaluator
sub-problem and the black-box IVP solver — enter as opaque function
parameters, exactly as the spec treats them.
-/

namespace Dymos

/-- Consecutive slices: each size in `sizes` receives the next contiguous
`(start, length)` slot beginning at `a` — the accumulation pattern of
`self.x_size += state_size`, `start_theta += param_size`, `start_z += ...`. -/
def sliceList : ℕ → List ℕ → List (ℕ × ℕ)
  | _, [] => []
  | a, s :: rest => (a, s) :: sliceList (a + s) rest

/-- How many slices of `L` contain position `k`. -/
def covers (L : List (ℕ × ℕ)) (k : ℕ) : ℕ :=
  L.countP fun sl => decide (sl.1 ≤ k ∧ k < sl.1 + sl.2)

/-- Static configuration of the component: the flattened size (`np.prod(shape)`)
of every state, parameter, control and polynomial control, in catalog
(declaration) order, plus the number of control input nodes
(`input_grid_data.subset_num_nodes['control_input']`).  A polynomial control is
`(order, np.prod(shape))`. -/
structure Config where
  numControlInputNodes : ℕ
  stateSizes : List ℕ
  paramSizes : List ℕ
  controlSizes : List ℕ
  polyControls : List (ℕ × ℕ)

/-- `self.x_size`, accumulated over the states in `_configure_states`. -/
def xSize (c : Config) : ℕ := c.stateSizes.sum

/-- `self.p_size`, accumulated in `_configure_parameters`. -/
def pSize (c : Config) : ℕ := c.paramSizes.sum

/-- `self.u_size`: each control contributes
`np.prod((num_control_input_nodes,) + shape)` (`_configure_controls`). -/
def uSize (c : Config) : ℕ := (c.controlSizes.map fun s => c.numControlInputNodes * s).sum

/-- `self.up_size`: each polynomial control contributes
`np.prod((order + 1,) + shape)` (`_configure_polynomial_controls`). -/
def upSize (c : Config) : ℕ := (c.polyControls.map fun p => (p.1 + 1) * p.2).sum

/-- `self.theta_size = 2 + self.p_size + self.u_size + self.up_size`
(`_configure_storage`). -/
def thetaSize (c : Config) : ℕ := 2 + pSize c + uSize c + upSize c

/-- `self.z_size = self.x_size + self.theta_size` (`_configure_storage`). -/
def zSize (c : Config) : ℕ := xSize c + thetaSize c

/-- The sizes of the trailing block of `theta` after `t_initial` and
`t_duration`: parameters, then controls, then polynomial controls. -/
def thetaRestSizes (c : Config) : List ℕ :=
  c.paramSizes ++ (c.controlSizes.map fun s => c.numControlInputNodes * s)
    ++ (c.polyControls.map fun p => (p.1 + 1) * p.2)

/-- `self.state_idxs`: the slice of each state inside `x`, in catalog order
(`_configure_states`); identical to `self._state_idxs_in_z` since the states
open `z` (`_configure_storage`). -/
def xSlices (c : Config) : List (ℕ × ℕ) := sliceList 0 c.stateSizes

/-- The slices of `theta`: `theta[0] = t_initial`, `theta[1] = t_duration`, then
the remaining quantities from `start_theta = 2` (`_configure_storage`). -/
def thetaSlices (c : Config) : List (ℕ × ℕ) :=
  (0, 1) :: (1, 1) :: sliceList 2 (thetaRestSizes c)

/-- The slices of `z`: states from 0, `t_initial` at `x_size`, `t_duration` at
`x_size + 1`, then the remaining quantities from `start_z = x_size + 2`
(`_configure_storage`). -/
def zSlices (c : Config) : List (ℕ × ℕ) :=
  sliceList 0 c.stateSizes
    ++ (xSize c, 1) :: (xSize c + 1, 1) :: sliceList (xSize c + 2) (thetaRestSizes c)

/-- The size list of `z` in layout order (states, `t_initial`, `t_duration`,
parameters, controls, polynomial controls). -/
def zSizeList (c : Config) : List ℕ := c.stateSizes ++ 1 :: 1 :: thetaRestSizes c

/-- The column sizes `_build_dx_dz_idxs` allocates for one output state of size
`so`: a block per input state, one column each for `t_initial` and `t_duration`
(`dx_dz_idx += 2`), then a block per parameter, control
(`np.prod(shape) * subset_num_nodes['control_input']` inputs) and polynomial
control (`np.prod(shape) * (order + 1)` inputs). -/
def dxdzColSizesPerOut (c : Config) (so : ℕ) : List ℕ :=
  (c.stateSizes.map fun si => so * si) ++ [1, 1]
    ++ (c.paramSizes.map fun s => so * s)
    ++ (c.controlSizes.map fun s => so * (s * c.numControlInputNodes))
    ++ (c.polyControls.map fun p => so * (p.2 * (p.1 + 1)))

/-- The cumulative column map of `_build_dx_dz_idxs`: one slice list per output
state in catalog order, `dx_dz_idx` accumulating across output states. -/
def dxdzSlicesAux (c : Config) : ℕ → List ℕ → List (List (ℕ × ℕ))
  | _, [] => []
  | start, so :: rest =>
      sliceList start (dxdzColSizesPerOut c so)
        :: dxdzSlicesAux c (start + (dxdzColSizesPerOut c so).sum) rest

/-- `self._partial_dx_dz_idxs` grouped by output state. -/
def dxdzSlices (c : Config) : List (List (ℕ × ℕ)) := dxdzSlicesAux c 0 c.stateSizes

/-- All column ranges of `self._partial_dx_dz_idxs`, in allocation order. -/
def dxdzAll (c : Config) : List (ℕ × ℕ) := (dxdzSlices c).flatten

/-- The external ODE evaluator (`eval_ode` / the `ode_eval` sub-problem): given
`(t, x, theta)` it yields the state rates `f` (a column, shape `(n_x, 1)`), and
their Jacobians `f_x` (`(n_x, n_x)`), `f_t` (`(n_x, 1)`) and `f_theta`
(`(n_x, n_theta)`).  It is an opaque collaborator of the core. -/
structure ODEEval where
  f : ℚ → (ℕ → ℚ) → (ℕ → ℚ) → ℕ → ℚ
  f_x : ℚ → (ℕ → ℚ) → (ℕ → ℚ) → ℕ → ℕ → ℚ
  f_t : ℚ → (ℕ → ℚ) → (ℕ → ℚ) → ℕ → ℚ
  f_theta : ℚ → (ℕ → ℚ) → (ℕ → ℚ) → ℕ → ℕ → ℚ

/-- `self._dtheta_dz` (`_configure_storage`): a `(theta_size, z_size)` zero
matrix whose trailing `theta_size` columns (columns `x_size` onward) hold the
identity: entry `(i, j)` is 1 iff `x_size ≤ j` and `i = j - x_size`. -/
def dtheta_dz (n_x : ℕ) : ℕ → ℕ → ℚ :=
  fun i j => if n_x ≤ j ∧ i = j - n_x then 1 else 0

/-- `y[n_x : n_x + n_x * n_z].reshape((n_x, n_z))`: the `dx/dz` block of the
augmented state vector. -/
def augDxDzBlock (n_x n_z : ℕ) (y : ℕ → ℚ) : ℕ → ℕ → ℚ :=
  fun i j => y (n_x + (i * n_z + j))

/-- `y[-n_z:]`: the `dt/dz` block of an augmented state vector of length
`n_x + n_x * n_z + n_z`. -/
def augDtDzBlock (n_x n_z : ℕ) (y : ℕ → ℚ) : ℕ → ℚ :=
  fun j => y (n_x + n_x * n_z + j)

/-- `_f_augmented`: the right-hand side of the coupled primal+tangent system.
`y = [x, ravel(dx_dz), dt_dz]`, `theta 1` is `t_duration`; `dh_dz` is zero
except `1 / t_duration` at column `n_x + 1`;
`dx_dz_dot = f_x @ dx_dz + f_t @ dt_dz + f_theta @ dtheta_dz + x_dot @ dt_dz_dot`;
the result is `np.concatenate((x_dot.ravel(), dx_dz_dot.ravel(),
dt_dz_dot.ravel()))`, with a `(n_x, n_z)` matrix ravelled row-major. -/
def f_augmented (n_x n_theta : ℕ) (ode : ODEEval) (t : ℚ) (y : ℕ → ℚ)
    (theta : ℕ → ℚ) (dth_dz : ℕ → ℕ → ℚ) : ℕ → ℚ :=
  let n_z := n_x + n_theta
  let x : ℕ → ℚ := y
  let td := theta 1
  let dx_dz := augDxDzBlock n_x n_z y
  let dt_dz := augDtDzBlock n_x n_z y
  let x_dot := ode.f t x theta
  let fx := ode.f_x t x theta
  let ft := ode.f_t t x theta
  let fth := ode.f_theta t x theta
  let dh_dz : ℕ → ℚ := fun j => if j = n_x + 1 then 1 / td else 0
  let dt_dz_dot := dh_dz
  let dx_dz_dot : ℕ → ℕ → ℚ := fun i j =>
    (∑ l ∈ Finset.range n_x, fx i l * dx_dz l j) + ft i * dt_dz j
      + (∑ l ∈ Finset.range n_theta, fth i l * dth_dz l j)
      + x_dot i * dt_dz_dot j
  fun k =>
    if k < n_x then x_dot k
    else if k < n_x + n_x * n_z then dx_dz_dot ((k - n_x) / n_z) ((k - n_x) % n_z)
    else dt_dz_dot (k - (n_x + n_x * n_z))

/-- Division made fallible: the source computes `1. / td` with no guard, a
division-by-zero failure when `td = 0`. -/
def checkedDiv (a b : ℚ) : Option ℚ := if b = 0 then none else some (a / b)

/-- `_f_augmented` with its single unguarded division `1. / td` made explicit:
the evaluation fails (is `none`) exactly when `t_duration = theta 1` is zero,
and otherwise produces the same vector as `f_augmented`. -/
def f_augmented_checked (n_x n_theta : ℕ) (ode : ODEEval) (t : ℚ) (y : ℕ → ℚ)
    (theta : ℕ → ℚ) (dth_dz : ℕ → ℕ → ℚ) : Option (ℕ → ℚ) :=
  (checkedDiv 1 (theta 1)).map fun invtd =>
    let n_z := n_x + n_theta
    let x : ℕ → ℚ := y
    let dx_dz := augDxDzBlock n_x n_z y
    let dt_dz := augDtDzBlock n_x n_z y
    let x_dot := ode.f t x theta
    let fx := ode.f_x t x theta
    let ft := ode.f_t t x theta
    let fth := ode.f_theta t x theta
    let dh_dz : ℕ → ℚ := fun j => if j = n_x + 1 then invtd else 0
    let dt_dz_dot := dh_dz
    let dx_dz_dot : ℕ → ℕ → ℚ := fun i j =>
      (∑ l ∈ Finset.range n_x, fx i l * dx_dz l j) + ft i * dt_dz j
        + (∑ l ∈ Finset.range n_theta, fth i l * dth_dz l j)
        + x_dot i * dt_dz_dot j
    fun k =>
      if k < n_x then x_dot k
      else if k < n_x + n_x * n_z then dx_dz_dot ((k - n_x) / n_z) ((k - n_x) % n_z)
      else dt_dz_dot (k - (n_x + n_x * n_z))

/-- The named inputs of one propagation, each flattened (`inputs[...]`). -/
structure Inputs where
  tInitial : ℚ
  tDuration : ℚ
  stateVals : List (List ℚ)
  paramVals : List (List ℚ)
  controlVals : List (List ℚ)
  pcVals : List (List ℚ)

/-- One numpy slice assignment `buf[start : start + len(vals)] = vals`. -/
def writeSlice (f : ℕ → ℚ) (start : ℕ) (vals : List ℚ) : ℕ → ℚ :=
  fun k => if start ≤ k ∧ k < start + vals.length then vals.getD (k - start) 0 else f k

/-- Sequential slice assignments into a flat buffer. -/
def scatter : List (ℕ × ℕ) → List (List ℚ) → (ℕ → ℚ) → ℕ → ℚ
  | sl :: sls, v :: vs, f => scatter sls vs (writeSlice f sl.1 v)
  | _, _, f => f

/-- `x0 = np.zeros(x_size)` then `x0[state_idxs[name]] = inputs[...]` for each
state, in catalog order (`_propagate`). -/
def x0Of (c : Config) (inp : Inputs) : ℕ → ℚ :=
  scatter (xSlices c) inp.stateVals (fun _ => 0)

/-- `theta = np.zeros(theta_size)`; `theta[0] = t_initial`,
`theta[1] = t_duration`, then the parameter, control and polynomial-control
values written into their theta slices (`_propagate`). -/
def thetaOf (c : Config) (inp : Inputs) : ℕ → ℚ :=
  scatter (sliceList 2 (thetaRestSizes c)) (inp.paramVals ++ inp.controlVals ++ inp.pcVals)
    (fun k => if k = 0 then inp.tInitial else if k = 1 then inp.tDuration else 0)

/-- `self._dx_dz_0`: a `(x_size, z_size)` zero matrix with
`[:, :x_size] = np.eye(x_size)` (`_configure_storage`). -/
def dxDz0 (c : Config) : ℕ → ℕ → ℚ :=
  fun i j => if j < xSize c then (if i = j then 1 else 0) else 0

/-- `self._dt_dz_0`: a `(1, z_size)` zero row with a 1 at column `x_size`
(`_configure_storage`). -/
def dtDz0 (c : Config) : ℕ → ℚ := fun j => if j = xSize c then 1 else 0

/-- `y0 = np.concatenate((x0.ravel(), self._dx_dz_0.ravel(),
self._dt_dz_0.ravel()))` (`_propagate`, derivative branch). -/
def y0Aug (c : Config) (x0 : ℕ → ℚ) : ℕ → ℚ :=
  fun k =>
    if k < xSize c then x0 k
    else if k < xSize c + xSize c * zSize c then
      dxDz0 c ((k - xSize c) / zSize c) ((k - xSize c) % zSize c)
    else dtDz0 c (k - (xSize c + xSize c * zSize c))

/-- `t_initial + 0.5 * (ptau + 1) * t_duration` (`_propagate`). -/
def affineSegTime (tInitial tDuration p : ℚ) : ℚ :=
  tInitial + 1 / 2 * (p + 1) * tDuration

/-- Record of one `solve_ivp` call made by the segment loop of `_propagate`:
the segment index, the requested output times `t_eval`, the span
`(t_eval[0], t_eval[-1])`, the initial vector handed to the solver, and the
rows `sol.y.T` the solver returned (one per requested time). -/
structure SegCall where
  segIdx : ℕ
  tEval : List ℚ
  tSpan : ℚ × ℚ
  y0 : ℕ → ℚ
  rows : List (ℕ → ℚ)

/-- The black-box IVP solver: right-hand side, time span, requested output
times and initial vector in; the solution row at each requested time out. -/
abbrev SolverT := (ℚ → (ℕ → ℚ) → ℕ → ℚ) → ℚ × ℚ → List ℚ → (ℕ → ℚ) → List (ℕ → ℚ)

/-- The segment loop of `_propagate` (derivative branch): for each segment in
index order, map its normalized nodes to times, call the solver, and carry
`sol.y.T[-1, :]` — the last returned row — into the next segment as `y0`.
(`getLastD` falls back to the incoming `y0` only for an empty solution, which
the source never produces: the solver returns one row per requested time and
every segment has at least one node.) -/
def propagateAugLoop (solver : SolverT) (rhs : ℚ → (ℕ → ℚ) → ℕ → ℚ)
    (tInitial tDuration : ℚ) : ℕ → List (List ℚ) → (ℕ → ℚ) → List SegCall
  | _, [], _ => []
  | i, ptau :: rest, y0 =>
      let tEval := ptau.map (affineSegTime tInitial tDuration)
      let tSpan := (tEval.headD 0, tEval.getLastD 0)
      let rows := solver rhs tSpan tEval y0
      ⟨i, tEval, tSpan, y0, rows⟩
        :: propagateAugLoop solver rhs tInitial tDuration (i + 1) rest (rows.getLastD y0)

/-- `_propagate` with `propagate_derivs` on: unpack `x0` and `theta` from the
inputs, build the augmented `y0`, and run the segment loop with
`_f_augmented` closed over `theta` and the constant `self._dtheta_dz`
(`args=(theta, self._dtheta_dz)` in every `solve_ivp` call).  `grid` is the
output grid's normalized node vector `node_ptau`, already cut into segments by
`segment_indices`. -/
def propagateAugFull (c : Config) (solver : SolverT) (ode : ODEEval)
    (inp : Inputs) (grid : List (List ℚ)) : List SegCall :=
  propagateAugLoop solver
    (fun t y =>
      f_augmented (xSize c) (thetaSize c) ode t y (thetaOf c inp) (dtheta_dz (xSize c)))
    inp.tInitial inp.tDuration 0 grid (y0Aug c (x0Of c inp))

/-- The cache-relevant mutable state of the component: the `propagate_derivs`
option; the `_inputs_cache` fingerprint (`inputs.get_hash()` is modelled as the
input vector itself, i.e. the hash is taken injective; the initial `''` is
`none`); whether the derivative output buffers `self._dx_dz_out` /
`self._dt_dz_out` were allocated (`propagate_derivs=False` leaves them `None`);
and a log of the integration passes run so far, recording for each whether
derivatives were propagated. -/
structure CacheEngine where
  optDerivs : Bool
  cache : Option (List ℚ)
  derivBufs : Option Unit
  passes : List Bool

/-- `_configure_storage`: the derivative output buffers are allocated only when
`propagate_derivs` is true, else they stay `None`; the fingerprint starts
empty. -/
def configureEngine (optDerivs : Bool) : CacheEngine :=
  { optDerivs := optDerivs, cache := none,
    derivBufs := if optDerivs then some () else none, passes := [] }

/-- `compute`: when the fingerprint differs from `_inputs_cache`, run
`_propagate` with `propagate_derivs` taken from the option and store the
fingerprint; otherwise reuse the buffers as they are. -/
def computeM (e : CacheEngine) (inp : List ℚ) : CacheEngine :=
  if e.cache = some inp then e
  else { e with cache := some inp, passes := e.passes ++ [e.optDerivs] }

/-- `compute_partials`: when the fingerprint differs, run `_propagate` with
`propagate_derivs=True` (writing into the buffers passed in, i.e. the engine's
own, which `_propagate` replaces by fresh local arrays when they are `None`)
and store the fingerprint; then slice the engine's derivative buffers — the
second component is `none` exactly when those were never allocated. -/
def computePartialsM (e : CacheEngine) (inp : List ℚ) : CacheEngine × Option Unit :=
  let e' := if e.cache = some inp then e
            else { e with cache := some inp, passes := e.passes ++ [true] }
  (e', e'.derivBufs)

/-- A grid as far as `setup`'s validation is concerned: its segment
boundaries. -/
structure GridInfo where
  segmentEnds : List ℚ

/-- Modelled from the spec: `GridData.is_aligned_with` is not under `src/`.
Per the spec ("share identical segment boundaries") and the error message of
`setup` ("the same number of segments and segment spacing"), two grids are
aligned exactly when their segment-end lists are equal. -/
def isAlignedWith (g h : GridInfo) : Bool := decide (g.segmentEnds = h.segmentEnds)

/-- The validation in `setup`: raise a `RuntimeError` iff the input grid is not
aligned with the output grid. -/
def setupCheck (igd ogd : GridInfo) : Except String Unit :=
  if isAlignedWith igd ogd then Except.ok ()
  else Except.error
    "The input grid and the output grid must have the same number of segments and segment spacing."

/-- `setup` raises on this pair of grids. -/
def setupRaises (igd ogd : GridInfo) : Prop :=
  ∃ msg, setupCheck igd ogd = Except.error msg

/-- A small concrete configuration with two scalar states, one parameter of
size 2, one control of size 1 (3 control input nodes) and one polynomial
control of order 2 and size 1. -/
def cS : Config := ⟨3, [1, 1], [2], [1], [(2, 1)]⟩

/-- A configuration with a single state of shape `(2,)` (size 2) and no other
quantities. -/
def cBad : Config := ⟨0, [2], [], [], []⟩

/-- A concrete ODE evaluator used by witnesses. -/
def odeW : ODEEval := ⟨fun _ x _ i => x i, fun _ _ _ _ _ => 1, fun _ _ _ _ => 2, fun _ _ _ _ _ => 3⟩

/-- A concrete solver: one row per requested time (the frozen initial vector);
it satisfies the solver's row-count contract. -/
def solverW : SolverT := fun _ _ tEval y0 => tEval.map fun _ => y0

/-- A concrete two-segment grid of normalized node positions. -/
def gridW : List (List ℚ) := [[-1, 0, 1], [-1, 1]]

/-- Concrete inputs matching `cS`. -/
def inpW : Inputs := ⟨0, 1, [[1], [2]], [[3, 4]], [[5]], [[6]]⟩

/-! ## Slice machinery -/

theorem sliceList_length : ∀ (l : List ℕ) (a : ℕ), (sliceList a l).length = l.length := by
  intro l
  induction l with
  | nil => intro a; rfl
  | cons s t ih => intro a; simp [sliceList, ih]

theorem covers_nil (k : ℕ) : covers [] k = 0 := rfl

theorem covers_cons (sl : ℕ × ℕ) (L : List (ℕ × ℕ)) (k : ℕ) :
    covers (sl :: L) k = (if sl.1 ≤ k ∧ k < sl.1 + sl.2 then 1 else 0) + covers L k := by
  simp only [covers, List.countP_cons, decide_eq_true_eq]
  split_ifs <;> omega

theorem covers_append (L1 L2 : List (ℕ × ℕ)) (k : ℕ) :
    covers (L1 ++ L2) k = covers L1 k + covers L2 k := by
  simp [covers, List.countP_append]

theorem covers_sliceList : ∀ (sizes : List ℕ) (a k : ℕ),
    covers (sliceList a sizes) k = if a ≤ k ∧ k < a + sizes.sum then 1 else 0 := by
  intro sizes
  induction sizes with
  | nil =>
    intro a k
    simp only [sliceList, covers_nil, List.sum_nil]
    split_ifs <;> omega
  | cons s t ih =>
    intro a k
    simp only [sliceList, covers_cons, ih, List.sum_cons]
    split_ifs <;> omega

theorem sliceList_append : ∀ (l1 : List ℕ) (a : ℕ) (l2 : List ℕ),
    sliceList a (l1 ++ l2) = sliceList a l1 ++ sliceList (a + l1.sum) l2 := by
  intro l1
  induction l1 with
  | nil => intro a l2; simp [sliceList]
  | cons s t ih => intro a l2; simp [sliceList, ih, Nat.add_assoc]

theorem sliceList_shift (d : ℕ) : ∀ (l : List ℕ) (b : ℕ),
    (sliceList b l).map (fun sl => (d + sl.1, sl.2)) = sliceList (d + b) l := by
  intro l
  induction l with
  | nil => intro b; rfl
  | cons s t ih => intro b; simp [sliceList, ih, Nat.add_assoc]

theorem thetaRest_sum (c : Config) :
    (thetaRestSizes c).sum = pSize c + uSize c + upSize c := by
  simp [thetaRestSizes, pSize, uSize, upSize]
  omega

theorem zSizeList_sum (c : Config) : (zSizeList c).sum = zSize c := by
  simp only [zSizeList, List.sum_append, List.sum_cons, thetaRest_sum, zSize, xSize, thetaSize]
  omega

theorem thetaSlices_eq (c : Config) :
    thetaSlices c = sliceList 0 (1 :: 1 :: thetaRestSizes c) := rfl

theorem zSlices_eq (c : Config) : zSlices c = sliceList 0 (zSizeList c) := by
  simp only [zSlices, zSizeList, sliceList_append, sliceList, Nat.zero_add, xSize]

/-! ## C2: layout of `x`, `theta`, `z` -/

/-- C2: each named quantity has exactly one contiguous slice; `theta` has size
`2 + n_p + n_u + n_up`, ordered `[t_initial, t_duration, parameters...,
controls..., polynomial_controls...]`; `z = [x, theta]` of size
`n_x + n_theta` (the `z` slices are the `x` slices followed by the `theta`
slices shifted by `n_x`); and the slices tile `[0, n_x)`, `[0, n_theta)` and
`[0, n_z)` exactly once — every position inside is covered by exactly one
slice, every position outside by none. -/
theorem C2_layout (c : Config) :
    thetaSize c = 2 + pSize c + uSize c + upSize c
  ∧ zSize c = xSize c + thetaSize c
  ∧ (xSlices c).length = c.stateSizes.length
  ∧ (thetaSlices c).length
      = 2 + c.paramSizes.length + c.controlSizes.length + c.polyControls.length
  ∧ zSlices c = xSlices c ++ (thetaSlices c).map (fun sl => (xSize c + sl.1, sl.2))
  ∧ (∀ k, k < xSize c → covers (xSlices c) k = 1)
  ∧ (∀ k, xSize c ≤ k → covers (xSlices c) k = 0)
  ∧ (∀ k, k < thetaSize c → covers (thetaSlices c) k = 1)
  ∧ (∀ k, thetaSize c ≤ k → covers (thetaSlices c) k = 0)
  ∧ (∀ k, k < zSize c → covers (zSlices c) k = 1)
  ∧ (∀ k, zSize c ≤ k → covers (zSlices c) k = 0) := by
  have hx : ∀ k, covers (xSlices c) k = if k < xSize c then 1 else 0 := by
    intro k
    rw [xSlices, covers_sliceList]
    split_ifs with h1 h2 h2 <;> first | rfl | (exfalso; revert h1; simp [xSize] at *; omega)
  have hth : ∀ k, covers (thetaSlices c) k = if k < thetaSize c then 1 else 0 := by
    intro k
    rw [thetaSlices_eq, covers_sliceList]
    have : (1 :: 1 :: thetaRestSizes c).sum = thetaSize c := by
      simp [List.sum_cons, thetaRest_sum, thetaSize]; omega
    rw [this]
    split_ifs <;> omega
  have hz : ∀ k, covers (zSlices c) k = if k < zSize c then 1 else 0 := by
    intro k
    rw [zSlices_eq, covers_sliceList, zSizeList_sum]
    split_ifs <;> omega
  refine ⟨rfl, rfl, sliceList_length _ _, ?_, ?_, ?_, ?_, ?_, ?_, ?_, ?_⟩
  · simp [thetaSlices, sliceList_length, thetaRestSizes]
    omega
  · simp only [zSlices, thetaSlices, xSlices, List.map_cons, sliceList_shift]
    rfl
  · intro k hk; rw [hx, if_pos hk]
  · intro k hk; rw [hx, if_neg (by omega)]
  · intro k hk; rw [hth, if_pos hk]
  · intro k hk; rw [hth, if_neg (by omega)]
  · intro k hk; rw [hz, if_pos hk]
  · intro k hk; rw [hz, if_neg (by omega)]

/-! ## C3: the column map of the flattened `dx/dz` block -/

theorem eq_replicate_one {l : List ℕ} (h : ∀ s ∈ l, s = 1) :
    l = List.replicate l.length 1 := by
  induction l with
  | nil => rfl
  | cons a t ih =>
    simp only [List.length_cons, List.replicate_succ, List.cons.injEq]
    exact ⟨h a (by simp), ih fun s hs => h s (by simp [hs])⟩

theorem replicate_one_sum (n : ℕ) : (List.replicate n 1).sum = n := by
  induction n with
  | zero => rfl
  | succ m ih => simp [List.replicate_succ, ih]; omega

theorem sliceList_replicate_one : ∀ (m a : ℕ),
    sliceList a (List.replicate m 1) = (List.range m).map fun k => (a + k, 1) := by
  intro m
  induction m with
  | zero => intro a; rfl
  | succ m' ih =>
    intro a
    rw [List.replicate_succ, List.range_succ_eq_map]
    simp only [sliceList, ih, List.map_cons, List.map_map, Nat.add_zero]
    congr 1
    apply List.map_congr_left
    intro k _
    simp only [Function.comp_apply]
    congr 1
    omega

theorem dxdzColSizes_one (c : Config) : dxdzColSizesPerOut c 1 = zSizeList c := by
  have h1 : (c.controlSizes.map fun s => s * c.numControlInputNodes)
      = c.controlSizes.map fun s => c.numControlInputNodes * s :=
    List.map_congr_left fun s _ => Nat.mul_comm s c.numControlInputNodes
  have h2 : (c.polyControls.map fun p => p.2 * (p.1 + 1))
      = c.polyControls.map fun p => (p.1 + 1) * p.2 :=
    List.map_congr_left fun p _ => Nat.mul_comm p.2 (p.1 + 1)
  unfold dxdzColSizesPerOut zSizeList thetaRestSizes
  simp only [one_mul, List.map_id', h1, h2, List.append_assoc, List.cons_append,
    List.singleton_append, List.nil_append]

theorem dxdzAux_replicate (c : Config) : ∀ (m a : ℕ),
    dxdzSlicesAux c a (List.replicate m 1)
      = (List.range m).map fun k => sliceList (a + k * zSize c) (zSizeList c) := by
  intro m
  induction m with
  | zero => intro a; rfl
  | succ m' ih =>
    intro a
    rw [List.replicate_succ, List.range_succ_eq_map]
    simp only [dxdzSlicesAux, dxdzColSizes_one, zSizeList_sum, ih, List.map_cons,
      List.map_map, Nat.zero_mul, Nat.add_zero]
    congr 1
    apply List.map_congr_left
    intro k _
    simp only [Function.comp_apply]
    congr 1
    rw [Nat.succ_mul]
    omega

theorem dxdz_scalar_covers (c : Config) : ∀ (m a k : ℕ),
    covers ((dxdzSlicesAux c a (List.replicate m 1)).flatten) k
      = if a ≤ k ∧ k < a + m * zSize c then 1 else 0 := by
  intro m
  induction m with
  | zero =>
    intro a k
    simp only [List.replicate, dxdzSlicesAux, List.flatten_nil, covers_nil]
    split_ifs <;> omega
  | succ m' ih =>
    intro a k
    rw [List.replicate_succ]
    simp only [dxdzSlicesAux, dxdzColSizes_one, zSizeList_sum, List.flatten_cons,
      covers_append, covers_sliceList, zSizeList_sum, ih]
    have hmul : (m' + 1) * zSize c = m' * zSize c + zSize c := by ring
    split_ifs <;> omega

/-- C3 (amended): when every state is scalar (size 1), the column map of
`_build_dx_dz_idxs` is exact — its ranges tile `[0, n_x * n_z)` with no gaps
and no overlaps, and the slice list of output state `a` is exactly the `z`
layout shifted by `a * n_z` (so each (output, input) range holds exactly that
partial's entries of the row-major flattened `dx/dz` block, with `t_initial`
and `t_duration` at single columns `a * n_z + n_x` and `a * n_z + n_x + 1`).
For a non-scalar state the fixed 2-column allocation cannot tile (see the
counterexample). -/
theorem C3_column_map_scalar (c : Config) (h : ∀ s ∈ c.stateSizes, s = 1) :
    (∀ k, k < xSize c * zSize c → covers (dxdzAll c) k = 1)
  ∧ (∀ k, xSize c * zSize c ≤ k → covers (dxdzAll c) k = 0)
  ∧ (∀ a, a < c.stateSizes.length →
      (dxdzSlices c)[a]? = some ((zSlices c).map fun sl => (a * zSize c + sl.1, sl.2)))
  ∧ (∀ a, a < c.stateSizes.length → (xSlices c)[a]? = some (a, 1)) := by
  have hrep := eq_replicate_one h
  have hxlen : xSize c = c.stateSizes.length := by
    rw [xSize]
    conv_lhs => rw [hrep]
    exact replicate_one_sum _
  have hcov : ∀ k, covers (dxdzAll c) k = if k < xSize c * zSize c then 1 else 0 := by
    intro k
    rw [dxdzAll, dxdzSlices, hrep, dxdz_scalar_covers, hxlen]
    split_ifs <;> omega
  refine ⟨?_, ?_, ?_, ?_⟩
  · intro k hk; rw [hcov, if_pos hk]
  · intro k hk; rw [hcov, if_neg (by omega)]
  · intro a ha
    rw [dxdzSlices, hrep, dxdzAux_replicate]
    rw [List.getElem?_map, List.getElem?_range ha]
    rw [zSlices_eq, sliceList_shift]
    simp
  · intro a ha
    rw [xSlices, hrep, sliceList_replicate_one]
    rw [List.getElem?_map, List.getElem?_range ha]
    simp

/-- C3 counterexample: for the configuration `cBad` with a single state of
shape `(2,)`, `n_x = 2` and `n_z = 4`, so the flattened `dx/dz` block has
`n_x * n_z = 8` columns, but `_build_dx_dz_idxs` allocates only 6 (the
state-state block `[0, 4)` plus one column each for `t_initial` and
`t_duration`): the ranges do not tile `[0, n_x * n_z)` — column 6 is covered
by no range. -/
theorem C3_counterexample :
    ¬ (∀ k, k < xSize cBad * zSize cBad → covers (dxdzAll cBad) k = 1) := by
  intro hcl
  exact absurd (hcl 6 (by decide)) (by decide)

/-- C3 witness: on the scalar-state configuration `cS` the column map covers
column 0 exactly once. -/
theorem C3_witness : covers (dxdzAll cS) 0 = 1 :=
  (C3_column_map_scalar cS (by decide)).1 0 (by decide)

/-! ## Row-major flat indexing -/

theorem flatIdx_lt {i j m n : ℕ} (hi : i < m) (hj : j < n) : i * n + j < m * n := by
  have h1 : i * n + j < (i + 1) * n := by
    have h : (i + 1) * n = i * n + n := by ring
    omega
  have h2 : (i + 1) * n ≤ m * n := Nat.mul_le_mul (by omega) (Nat.le_refl n)
  omega

theorem flatIdx_div {i j n : ℕ} (hn : 0 < n) (hj : j < n) : (i * n + j) / n = i := by
  rw [Nat.mul_comm, Nat.mul_add_div hn, Nat.div_eq_of_lt hj, Nat.add_zero]

theorem flatIdx_mod {i j n : ℕ} (hj : j < n) : (i * n + j) % n = j := by
  rw [Nat.mul_comm, Nat.mul_add_mod, Nat.mod_eq_of_lt hj]

/-! ## C1: the augmented dynamics -/

/-- C1: for nonzero `t_duration = theta 1`, the vector `_f_augmented` returns
has a `dt/dz` block equal to `e_j / t_duration` with `e_j` the unit vector at
column `n_x + 1` (the `t_duration` column of `z`); a `dx/dz` block equal to
`f_x @ dx_dz + f_t @ dt_dz + f_theta @ dtheta_dz + x_dot @ dt_dz_dot` (with
`dx_dz` and `dt_dz` the blocks of the incoming `y` and `dt_dz_dot` the new
`dt/dz` block); and `self._dtheta_dz` — passed unchanged to every `solve_ivp`
call of the propagation — is the constant block matrix `[0 | I]`: zero on the
first `n_x` columns and the identity on columns `n_x` onward. -/
theorem C1_augmented_dynamics (n_x n_theta : ℕ) (hth : 2 ≤ n_theta) (ode : ODEEval)
    (t : ℚ) (y theta : ℕ → ℚ) (_htd : theta 1 ≠ 0) :
    (∀ j, j < n_x + n_theta →
      augDtDzBlock n_x (n_x + n_theta)
          (f_augmented n_x n_theta ode t y theta (dtheta_dz n_x)) j
        = (if j = n_x + 1 then 1 else 0) / theta 1)
  ∧ (∀ i, i < n_x → ∀ j, j < n_x + n_theta →
      augDxDzBlock n_x (n_x + n_theta)
          (f_augmented n_x n_theta ode t y theta (dtheta_dz n_x)) i j
        = (∑ l ∈ Finset.range n_x,
              ode.f_x t y theta i l * augDxDzBlock n_x (n_x + n_theta) y l j)
          + ode.f_t t y theta i * augDtDzBlock n_x (n_x + n_theta) y j
          + (∑ l ∈ Finset.range n_theta, ode.f_theta t y theta i l * dtheta_dz n_x l j)
          + ode.f t y theta i * ((if j = n_x + 1 then 1 else 0) / theta 1))
  ∧ (∀ i j, j < n_x → dtheta_dz n_x i j = 0)
  ∧ (∀ i k, dtheta_dz n_x i (n_x + k) = if i = k then 1 else 0) := by
  have hz : 0 < n_x + n_theta := by omega
  refine ⟨?_, ?_, ?_, ?_⟩
  · intro j hj
    simp only [augDtDzBlock, f_augmented]
    rw [if_neg (by omega), if_neg (by omega)]
    have he : n_x + n_x * (n_x + n_theta) + j - (n_x + n_x * (n_x + n_theta)) = j := by omega
    rw [he]
    split_ifs with h
    · rw [one_div]
    · rw [zero_div]
  · intro i hi j hj
    have hlt : i * (n_x + n_theta) + j < n_x * (n_x + n_theta) := flatIdx_lt hi hj
    simp only [augDxDzBlock, f_augmented]
    rw [if_neg (by omega), if_pos (by omega)]
    have he : n_x + (i * (n_x + n_theta) + j) - n_x = i * (n_x + n_theta) + j := by omega
    rw [he, flatIdx_div hz hj, flatIdx_mod hj]
    simp only [augDxDzBlock, augDtDzBlock]
    congr 1
    split_ifs with h
    · rw [one_div]
    · rw [zero_div, mul_zero]
  · intro i j hj
    simp only [dtheta_dz]
    rw [if_neg (by omega)]
  · intro i k
    simp only [dtheta_dz, Nat.le_add_right, Nat.add_sub_cancel_left, true_and]

/-- C1 witness at `n_x = 1`, `n_theta = 2`, `t_duration = 1`, evaluating the
`dt/dz` block at its `t_duration` column. -/
theorem C1_witness :
    augDtDzBlock 1 3
        (f_augmented 1 2 odeW 0 (fun k => (k : ℚ)) (fun _ => 1) (dtheta_dz 1)) 2
      = (if 2 = 1 + 1 then 1 else 0) / (1 : ℚ) :=
  (C1_augmented_dynamics 1 2 (by norm_num) odeW 0 (fun k => (k : ℚ)) (fun _ => 1)
      (by norm_num)).1 2 (by norm_num)

/-! ## C6: the initial augmented state -/

theorem zSize_pos (c : Config) : 0 < zSize c := by
  rw [zSize, thetaSize]
  omega

/-- C6: the initial augmented vector `y0` built by `_propagate` when
sensitivities are propagated has `x`-block `x0` (the unpacked initial state
values), `dx/dz`-block `[I, 0]` (the identity in the state-block columns of
`z`, zero elsewhere), and `dt/dz`-block the unit vector at `t_initial`'s column
`n_x` of `z`; and every propagation starts from it — the first solver call of
`propagateAugFull` receives exactly this vector. -/
theorem C6_initial_augmented_state (c : Config) (inp : Inputs) :
    (∀ i, i < xSize c → y0Aug c (x0Of c inp) i = x0Of c inp i)
  ∧ (∀ i, i < xSize c → ∀ j, j < zSize c →
      augDxDzBlock (xSize c) (zSize c) (y0Aug c (x0Of c inp)) i j
        = if i = j then 1 else 0)
  ∧ (∀ j, j < zSize c →
      augDtDzBlock (xSize c) (zSize c) (y0Aug c (x0Of c inp)) j
        = if j = xSize c then 1 else 0)
  ∧ (∀ (solver : SolverT) (ode : ODEEval) (grid : List (List ℚ)), grid ≠ [] →
      ((propagateAugFull c solver ode inp grid)[0]?).map SegCall.y0
        = some (y0Aug c (x0Of c inp))) := by
  have hz := zSize_pos c
  refine ⟨?_, ?_, ?_, ?_⟩
  · intro i hi
    simp only [y0Aug]
    rw [if_pos hi]
  · intro i hi j hj
    have hlt : i * zSize c + j < xSize c * zSize c := flatIdx_lt hi hj
    simp only [augDxDzBlock, y0Aug]
    rw [if_neg (by omega), if_pos (by omega)]
    have he : xSize c + (i * zSize c + j) - xSize c = i * zSize c + j := by omega
    rw [he, flatIdx_div hz hj, flatIdx_mod hj]
    simp only [dxDz0]
    by_cases hjx : j < xSize c
    · rw [if_pos hjx]
    · rw [if_neg hjx, if_neg (by omega)]
  · intro j hj
    simp only [augDtDzBlock, y0Aug]
    rw [if_neg (by omega), if_neg (by omega)]
    have he : xSize c + xSize c * zSize c + j - (xSize c + xSize c * zSize c) = j := by omega
    rw [he]
    rfl
  · intro solver ode grid hgrid
    cases grid with
    | nil => exact absurd rfl hgrid
    | cons pt rest => simp [propagateAugFull, propagateAugLoop]

/-! ## C8: the unguarded division by `t_duration` -/

/-- C8 (amended): zero duration is not rejected anywhere — `setup`'s only
validation is the grid-alignment check, which never sees `t_duration` — and
`_f_augmented` divides by `t_duration` unguarded: with `t_duration = 0` the
evaluation of the augmented dynamics fails at `1. / td`, while for any nonzero
duration it succeeds and equals `f_augmented`.  Zero-duration segments are a
caller error, exactly as the spec's §4.4 edge-case note states. -/
theorem C8_unguarded_division (n_x n_theta : ℕ) (ode : ODEEval) (t : ℚ)
    (y theta : ℕ → ℚ) (dth : ℕ → ℕ → ℚ) :
    (theta 1 = 0 → f_augmented_checked n_x n_theta ode t y theta dth = none)
  ∧ (theta 1 ≠ 0 →
      f_augmented_checked n_x n_theta ode t y theta dth
        = some (f_augmented n_x n_theta ode t y theta dth)) := by
  constructor
  · intro h
    simp [f_augmented_checked, checkedDiv, h]
  · intro h
    simp only [f_augmented_checked, f_augmented, checkedDiv, if_neg h, Option.map_some']

/-- C8 counterexample: evaluating the augmented dynamics with
`t_duration = theta 1 = 0` performs the unguarded division `1. / td` and
fails — refuting "never performs an unguarded division by `t_duration` that
fails" (and the propagation containing this evaluation is neither rejected at
validation nor degenerate-but-well-defined). -/
theorem C8_counterexample :
    f_augmented_checked 1 2 odeW 0 (fun _ => 0) (fun _ => 0) (dtheta_dz 1) = none := by
  simp [f_augmented_checked, checkedDiv]

/-! ## The segment loop: lemmas -/

theorem propLoop_length (solver : SolverT) (rhs : ℚ → (ℕ → ℚ) → ℕ → ℚ) (ti td : ℚ) :
    ∀ (g : List (List ℚ)) (i : ℕ) (y : ℕ → ℚ),
      (propagateAugLoop solver rhs ti td i g y).length = g.length := by
  intro g
  induction g with
  | nil => intro i y; rfl
  | cons pt rest ih => intro i y; simp [propagateAugLoop, ih]

theorem propLoop_spec (solver : SolverT) (rhs : ℚ → (ℕ → ℚ) → ℕ → ℚ) (ti td : ℚ) :
    ∀ (g : List (List ℚ)) (i : ℕ) (y : ℕ → ℚ) (k : ℕ) (c1 : SegCall),
      (propagateAugLoop solver rhs ti td i g y)[k]? = some c1 →
      ∃ pt, g[k]? = some pt
        ∧ c1.segIdx = i + k
        ∧ c1.tEval = pt.map (affineSegTime ti td)
        ∧ c1.tSpan = (c1.tEval.headD 0, c1.tEval.getLastD 0)
        ∧ c1.rows = solver rhs c1.tSpan c1.tEval c1.y0 := by
  intro g
  induction g with
  | nil => intro i y k c1 h; simp [propagateAugLoop] at h
  | cons pt rest ih =>
    intro i y k c1 h
    cases k with
    | zero =>
      simp only [propagateAugLoop, List.getElem?_cons_zero, Option.some.injEq] at h
      subst h
      exact ⟨pt, by simp, by simp, rfl, rfl, rfl⟩
    | succ k' =>
      simp only [propagateAugLoop, List.getElem?_cons_succ] at h
      obtain ⟨pt', h1, h2, h3, h4, h5⟩ := ih (i + 1) _ k' c1 h
      exact ⟨pt', by simpa using h1, by omega, h3, h4, h5⟩

theorem propLoop_y0_zero (solver : SolverT) (rhs : ℚ → (ℕ → ℚ) → ℕ → ℚ) (ti td : ℚ)
    (pt : List ℚ) (g : List (List ℚ)) (i : ℕ) (y : ℕ → ℚ) (c1 : SegCall)
    (h : (propagateAugLoop solver rhs ti td i (pt :: g) y)[0]? = some c1) :
    c1.y0 = y := by
  simp only [propagateAugLoop, List.getElem?_cons_zero, Option.some.injEq] at h
  subst h
  rfl

theorem propLoop_chain (solver : SolverT) (rhs : ℚ → (ℕ → ℚ) → ℕ → ℚ) (ti td : ℚ) :
    ∀ (g : List (List ℚ)) (i : ℕ) (y : ℕ → ℚ) (k : ℕ) (c1 c2 : SegCall),
      (propagateAugLoop solver rhs ti td i g y)[k]? = some c1 →
      (propagateAugLoop solver rhs ti td i g y)[k + 1]? = some c2 →
      c2.y0 = c1.rows.getLastD c1.y0 := by
  intro g
  induction g with
  | nil => intro i y k c1 c2 h1 h2; simp [propagateAugLoop] at h1
  | cons pt rest ih =>
    intro i y k c1 c2 h1 h2
    cases k with
    | zero =>
      simp only [propagateAugLoop, List.getElem?_cons_zero, Option.some.injEq] at h1
      simp only [propagateAugLoop, List.getElem?_cons_succ] at h2
      subst h1
      cases rest with
      | nil => simp [propagateAugLoop] at h2
      | cons pt2 rest2 => exact propLoop_y0_zero solver rhs ti td pt2 rest2 _ _ c2 h2
    | succ k' =>
      simp only [propagateAugLoop, List.getElem?_cons_succ] at h1 h2
      exact ih (i + 1) _ k' c1 c2 h1 h2

/-! ## C4: segment order and the carried augmented state -/

/-- C4: segments are integrated strictly in index order (the `k`-th solver call
of a propagation carries segment index `k`, and there is one call per segment),
and the initial augmented vector fed into segment `i + 1` is exactly the
solver's final augmented state of segment `i` — the last solution row,
state and sensitivity blocks alike, with no block re-initialized at the
boundary. -/
theorem C4_segment_order_and_carry (solver : SolverT) (rhs : ℚ → (ℕ → ℚ) → ℕ → ℚ)
    (ti td : ℚ) (grid : List (List ℚ)) (y0 : ℕ → ℚ)
    (hsol : ∀ f sp te y, (solver f sp te y).length = te.length)
    (hgrid : ∀ s ∈ grid, s ≠ []) :
    ((propagateAugLoop solver rhs ti td 0 grid y0).length = grid.length)
  ∧ (∀ (k : ℕ) (c1 : SegCall),
      (propagateAugLoop solver rhs ti td 0 grid y0)[k]? = some c1 →
      c1.segIdx = k)
  ∧ (∀ (k : ℕ) (c1 c2 : SegCall),
      (propagateAugLoop solver rhs ti td 0 grid y0)[k]? = some c1 →
      (propagateAugLoop solver rhs ti td 0 grid y0)[k + 1]? = some c2 →
      c1.rows = solver rhs c1.tSpan c1.tEval c1.y0
        ∧ ∃ h : c1.rows ≠ [], c2.y0 = c1.rows.getLast h) := by
  refine ⟨propLoop_length solver rhs ti td grid 0 y0, ?_, ?_⟩
  · intro k c1 h
    obtain ⟨pt, _, h2, _, _, _⟩ := propLoop_spec solver rhs ti td grid 0 y0 k c1 h
    omega
  · intro k c1 c2 h1 h2
    obtain ⟨pt, hg, _, h3, _, h5⟩ := propLoop_spec solver rhs ti td grid 0 y0 k c1 h1
    have hptmem : pt ∈ grid := by
      have := List.getElem?_eq_some_iff.mp hg
      obtain ⟨hlt, hval⟩ := this
      exact hval ▸ List.getElem_mem hlt
    have hptne : pt ≠ [] := hgrid pt hptmem
    have hrowsne : c1.rows ≠ [] := by
      have hlen : c1.rows.length = c1.tEval.length := by rw [h5]; exact hsol _ _ _ _
      have : c1.tEval.length = pt.length := by rw [h3, List.length_map]
      intro hc
      apply hptne
      have : pt.length = 0 := by rw [← this, ← hlen, hc]; rfl
      exact List.eq_nil_of_length_eq_zero this
    refine ⟨h5, hrowsne, ?_⟩
    rw [propLoop_chain solver rhs ti td grid 0 y0 k c1 c2 h1 h2]
    rw [List.getLastD_eq_getLast?, List.getLast?_eq_getLast c1.rows hrowsne]
    rfl

/-- C4 witness: the concrete two-segment propagation makes one solver call per
segment. -/
theorem C4_witness :
    (propagateAugLoop solverW (fun _ y => y) 0 1 0 gridW (fun _ => 0)).length
      = gridW.length :=
  (C4_segment_order_and_carry solverW (fun _ y => y) 0 1 gridW (fun _ => 0)
      (fun _ _ te _ => by simp [solverW])
      (by intro s hs; fin_cases hs <;> simp [gridW])).1

/-! ## C7: the affine node-time mapping -/

/-- C7: each segment's requested output-node times are its normalized node
positions mapped by `t = t_initial + 0.5 * (ptau + 1) * t_duration` — the
affine map sending `-1` to `t_initial` and `1` to `t_initial + t_duration` —
and the segment's time span runs from the first to the last of those node
times. -/
theorem C7_node_time_mapping (solver : SolverT) (rhs : ℚ → (ℕ → ℚ) → ℕ → ℚ)
    (ti td : ℚ) (grid : List (List ℚ)) (y0 : ℕ → ℚ)
    (hgrid : ∀ s ∈ grid, s ≠ []) :
    (∀ (k : ℕ) (c1 : SegCall),
      (propagateAugLoop solver rhs ti td 0 grid y0)[k]? = some c1 →
      ∃ pt, grid[k]? = some pt
        ∧ c1.tEval = pt.map (affineSegTime ti td)
        ∧ c1.tEval ≠ []
        ∧ c1.tSpan = (c1.tEval.headD 0, c1.tEval.getLastD 0))
  ∧ affineSegTime ti td (-1) = ti
  ∧ affineSegTime ti td 1 = ti + td := by
  refine ⟨?_, by simp [affineSegTime], by simp [affineSegTime]; ring⟩
  intro k c1 h
  obtain ⟨pt, hg, _, h3, h4, _⟩ := propLoop_spec solver rhs ti td grid 0 y0 k c1 h
  have hptmem : pt ∈ grid := by
    obtain ⟨hlt, hval⟩ := List.getElem?_eq_some_iff.mp hg
    exact hval ▸ List.getElem_mem hlt
  refine ⟨pt, hg, h3, ?_, h4⟩
  rw [h3]
  simpa using hgrid pt hptmem

/-- C7 witness: the affine map sends the left endpoint `-1` to `t_initial`. -/
theorem C7_witness : affineSegTime 3 5 (-1) = 3 :=
  (C7_node_time_mapping solverW (fun _ y => y) 3 5 gridW (fun _ => 0)
      (by intro s hs; fin_cases hs <;> simp [gridW])).2.1

/-! ## C5 and C10: the input-fingerprint cache -/

/-- C5: with a fresh input, `compute` followed by `compute_partials` on
identical inputs runs exactly one integration pass (the second call sees the
matching fingerprint and skips); `compute` twice on identical inputs runs
exactly one pass; and changing the input changes the stored fingerprint and
forces a full re-propagation (one more pass). -/
theorem C5_cache_correctness (e : CacheEngine) (inp inp2 : List ℚ)
    (hc : e.cache ≠ some inp) (hne : inp ≠ inp2) :
    ((computePartialsM (computeM e inp) inp).1.passes.length = e.passes.length + 1)
  ∧ ((computeM (computeM e inp) inp).passes.length = e.passes.length + 1)
  ∧ ((computeM (computeM e inp) inp2).cache ≠ (computeM e inp).cache
      ∧ (computeM (computeM e inp) inp2).passes.length = e.passes.length + 2) := by
  have h1 : computeM e inp
      = { e with cache := some inp, passes := e.passes ++ [e.optDerivs] } := by
    rw [computeM, if_neg hc]
  have hne2 : ¬ ((some inp : Option (List ℚ)) = some inp2) := by simpa using hne
  refine ⟨?_, ?_, ?_, ?_⟩
  · rw [h1]
    simp [computePartialsM]
  · rw [h1]
    simp [computeM]
  · rw [h1]
    rw [computeM, if_neg (by simp [hne])]
    show (some inp2 : Option (List ℚ)) ≠ some inp
    simp only [ne_eq, Option.some.injEq]
    exact fun hx => hne hx.symm
  · rw [h1]
    rw [computeM, if_neg (by simp [hne])]
    simp [List.length_append]

/-- C5 witness at a concrete engine and inputs. -/
theorem C5_witness :
    (computeM (computeM (configureEngine true) [1]) [1]).passes.length
      = (configureEngine true).passes.length + 1 :=
  (C5_cache_correctness (configureEngine true) [1] [2]
      (by simp [configureEngine]) (by simp)).2.1

/-- C10: with `propagate_derivs = False` the derivative buffers are `None` from
configuration on; `compute` runs a primal-only pass and stores the input
fingerprint; a `compute_partials` with identical inputs then sees the matching
fingerprint, skips the re-propagation that would have forced derivatives on,
and slices derivative buffers that are still `None` — and the fingerprint
itself records nothing about whether derivatives were propagated (it is the
same value a derivative-enabled engine would store). -/
theorem C10_stale_none_buffers (inp : List ℚ) :
    (computeM (configureEngine false) inp).cache = some inp
  ∧ (computeM (configureEngine false) inp).passes = [false]
  ∧ (computePartialsM (computeM (configureEngine false) inp) inp).1.passes = [false]
  ∧ (computePartialsM (computeM (configureEngine false) inp) inp).2 = none
  ∧ (computeM (configureEngine false) inp).cache
      = (computeM (configureEngine true) inp).cache := by
  have h1 : computeM (configureEngine false) inp
      = ⟨false, some inp, none, [false]⟩ := by
    rw [computeM, if_neg (by simp [configureEngine])]
    simp [configureEngine]
  refine ⟨by simp [h1], by simp [h1], ?_, ?_, ?_⟩
  · rw [h1]
    simp [computePartialsM]
  · rw [h1]
    simp [computePartialsM]
  · rw [h1]
    simp [computeM, configureEngine]

/-! ## C9: setup validation of grid alignment -/

/-- C9: `setup` raises exactly when the input grid and the output grid do not
share identical segment boundaries, and the check lives only at setup time —
the propagation itself performs no such check and unconditionally processes
every segment of the output grid (one solver call per segment, whatever any
grids look like). -/
theorem C9_setup_alignment (igd ogd : GridInfo) :
    (setupRaises igd ogd ↔ igd.segmentEnds ≠ ogd.segmentEnds)
  ∧ (setupCheck igd ogd = Except.ok () ↔ igd.segmentEnds = ogd.segmentEnds)
  ∧ (∀ (c : Config) (solver : SolverT) (ode : ODEEval) (inp : Inputs)
        (grid : List (List ℚ)),
      (propagateAugFull c solver ode inp grid).length = grid.length) := by
  refine ⟨?_, ?_, ?_⟩
  · by_cases h : igd.segmentEnds = ogd.segmentEnds <;>
      simp [setupRaises, setupCheck, isAlignedWith, h]
  · by_cases h : igd.segmentEnds = ogd.segmentEnds <;>
      simp [setupCheck, isAlignedWith, h]
  · intro c solver ode inp grid
    exact propLoop_length _ _ _ _ grid 0 _

end Dymos
